import Mathlib

/-!
Shallow embedding of the step-analysis orchestrator of the data-analysis
assistant (React `App` component plus `types.ts`).

Strings are modelled as lists of characters (`Str`), so that the
`'Title: Description'` parsing of `runAnalysis` (JavaScript
`s.split(':')`, `parts.slice(1).join(':')`, `trim`) can be reasoned
about structurally.  Cell values of a data row are opaque strings.
External code (`analyzeSingleStep` from `services/geminiService`) is an
abstract parameter: a function returning `Except`, where `Except.error`
models a thrown exception caught by `executeStep`'s `try/catch`.

React state updates are modelled as traces: each orchestrator entry
point is embedded as a function returning the list of successive values
that `setStepAnalyses` (resp. `setSelectedSheetsMap`) installs, in
order.  `await`-sequencing in the source is linear control flow, so the
trace of one call is exactly this list.
-/

abbrev Str := List Char

/-- A data row: `types.ts` `DataRow` is a string-keyed record; values are
modelled as opaque strings. -/
abbrev DataRow := List (Str × Str)

/-- Model of `types.ts` `ChartConfig.type`: `'bar' | 'line' | 'pie' | 'scatter'`. -/
inductive ChartType
  | bar | line | pie | scatter
deriving DecidableEq, Repr

/-- Model of `types.ts` `ChartConfig`. -/
structure ChartConfig where
  type : ChartType
  title : Str
  xAxis : Str
  yAxis : Str
deriving DecidableEq, Repr

/-- Model of `types.ts` `StepResult`. -/
structure StepResult where
  summary : Str
  insights : List Str
  charts : List ChartConfig
deriving DecidableEq, Repr

/-- Model of `types.ts` `StepAnalysis.status`: `'pending' | 'analyzing' | 'done' | 'error'`. -/
inductive Status
  | pending | analyzing | done | error
deriving DecidableEq, Repr

/-- Model of `types.ts` `StepAnalysis`. -/
structure StepAnalysis where
  id : Str
  title : Str
  description : Str
  status : Status
  result : Option StepResult := none
deriving DecidableEq, Repr

/-- Model of `types.ts` `FieldCategorization`. -/
structure FieldCategorization where
  idFields : List Str
  contentFields : List Str
  categoryFields : List Str
  timeFields : List Str
  numericFields : List Str
  otherFields : List Str
deriving DecidableEq, Repr

/-- Model of `types.ts` `SheetData`. -/
structure SheetData where
  name : Str
  rows : List DataRow
  columns : List Str
  fieldCategorization : FieldCategorization
deriving DecidableEq, Repr

/-- Model of `types.ts` `FileData`. -/
structure FileData where
  name : Str
  sheets : List SheetData
  activeSheetIndex : Nat
deriving DecidableEq, Repr

/-- The external `analyzeSingleStep(title, description, sampleData, columns)`
call: `Except.ok` is a successful resolution, `Except.error` a thrown
exception. -/
abbrev AnalyzeFn := Str → Str → List DataRow → List Str → Except Unit StepResult

/-- JavaScript `String.prototype.trim` on the character-list model. -/
def trimStr (s : Str) : Str :=
  ((s.dropWhile Char.isWhitespace).reverse.dropWhile Char.isWhitespace).reverse

/-- JavaScript `s.split(':')`: always returns at least one (possibly empty)
part. -/
def splitOnColon : Str → List Str
  | [] => [[]]
  | c :: rest =>
    if c = ':' then [] :: splitOnColon rest
    else
      match splitOnColon rest with
      | [] => [[c]]
      | h :: t => (c :: h) :: t

/-- JavaScript `parts.join(':')`. -/
def joinColon : List Str → Str
  | [] => []
  | [x] => x
  | x :: xs => x ++ ':' :: joinColon xs

/-- Decimal rendering of a natural number, as a character list. -/
def natToStr (n : Nat) : Str := (Nat.repr n).data

/-- The fallback title `` `分析步骤 ${idx + 1}` `` of `runAnalysis`. -/
def defaultTitle (idx : Nat) : Str := "分析步骤 ".data ++ natToStr (idx + 1)

/-- The generated id `` `step-${Date.now()}-${idx}` ``; `Date.now()` is the
abstract parameter `now`. -/
def stepId (now idx : Nat) : Str :=
  "step-".data ++ natToStr now ++ "-".data ++ natToStr idx

/-- One element of the `customSteps.map` in `runAnalysis`: parse
`'Title: Description'` into an initial pending `StepAnalysis`. -/
def parseStep (now idx : Nat) (s : Str) : StepAnalysis :=
  let parts := splitOnColon s
  let t := trimStr (parts.headD [])
  let title := if t = [] then defaultTitle idx else t
  let d := trimStr (joinColon (parts.drop 1))
  let description := if d = [] then s else d
  { id := stepId now idx, title := title, description := description,
    status := .pending, result := none }

/-- The loop `customSteps.map((s, idx) => ...)` with the running index made explicit. -/
def mkStepsFrom (now : Nat) : Nat → List Str → List StepAnalysis
  | _, [] => []
  | idx, s :: rest => parseStep now idx s :: mkStepsFrom now (idx + 1) rest

/-- The `initialSteps` list built by `runAnalysis` from `customSteps`. -/
def mkInitialSteps (now : Nat) (cs : List Str) : List StepAnalysis :=
  mkStepsFrom now 0 cs

/-- The update `prev.map((s, i) => i === index ? f(s) : s)`: rewrite the element at one
index, leave every other element alone. -/
def mapAt (l : List StepAnalysis) (j : Nat) (f : StepAnalysis → StepAnalysis) :
    List StepAnalysis :=
  match l[j]? with
  | some s => l.set j (f s)
  | none => l

/-- Model of `executeStep`'s `activeSheets.flatMap(s => s.rows.slice(0, 50))`. -/
def combinedSample (sheets : List SheetData) : List DataRow :=
  (sheets.map (fun s => s.rows.take 50)).flatten

/-- One step of `Array.from(new Set(...))` insertion: add an element to the
back unless it is already present. -/
def insertUnique (acc : List Str) (x : Str) : List Str :=
  if x ∈ acc then acc else acc ++ [x]

/-- Model of `Array.from(new Set(l))`: duplicate-free, keeping first occurrences in
order. -/
def dedupFirst (l : List Str) : List Str := l.foldl insertUnique []

/-- Model of `executeStep`'s `Array.from(new Set(activeSheets.flatMap(s => s.columns)))`. -/
def combinedColumns (sheets : List SheetData) : List Str :=
  dedupFirst ((sheets.map (fun s => s.columns)).flatten)

/-- The trace of `stepAnalyses` states installed by one `executeStep(index,
currentSteps)` call.  `sheets` is the closed-over `activeSheets` value,
`cur` the live `stepAnalyses` state when the call starts (the `prev` seen
by its first functional update).  An out-of-range `index` reads
`undefined` from `currentSteps`, so the `analyzeSingleStep` argument
evaluation throws inside the `try` and the step is marked `'error'`. -/
def executeStepTrace (sheets : List SheetData) (an : AnalyzeFn) (index : Nat)
    (currentSteps cur : List StepAnalysis) : List (List StepAnalysis) :=
  if sheets = [] then []
  else
    let s1 := mapAt cur index (fun s => { s with status := .analyzing })
    match currentSteps[index]? with
    | none => [s1, mapAt s1 index (fun s => { s with status := .error })]
    | some step =>
      match an step.title step.description (combinedSample sheets)
          (combinedColumns sheets) with
      | .ok result =>
        [s1, mapAt s1 index (fun s => { s with status := .done, result := some result })]
      | .error _ => [s1, mapAt s1 index (fun s => { s with status := .error })]

/-- The serial `for` loop of `runAnalysis`: run `executeStep i` for each
index in order, threading the live state (the last installed state, or the
incoming one when a call installs nothing). -/
def runSteps (sheets : List SheetData) (an : AnalyzeFn)
    (init : List StepAnalysis) : List Nat → List StepAnalysis → List (List StepAnalysis)
  | [], _ => []
  | j :: rest, cur =>
    let e := executeStepTrace sheets an j init cur
    e ++ runSteps sheets an init rest (e.getLastD cur)

/-- The trace of `stepAnalyses` states installed by `runAnalysis(customSteps)`
(`none` models the `undefined` argument). -/
def runAnalysisTrace (sheets : List SheetData) (an : AnalyzeFn) (now : Nat)
    (customSteps : Option (List Str)) : List (List StepAnalysis) :=
  match customSteps with
  | none => []
  | some cs =>
    if cs = [] then []
    else
      let init := mkInitialSteps now cs
      init :: runSteps sheets an init (List.range cs.length) init

/-- The trace of `stepAnalyses` states installed by
`handleReAnalyzeStep(id, newTitle, newDescription)` on current state
`steps`. -/
def handleReAnalyzeStepTrace (sheets : List SheetData) (an : AnalyzeFn)
    (steps : List StepAnalysis) (id newTitle newDescription : Str) :
    List (List StepAnalysis) :=
  match steps.findIdx? (fun s => s.id == id) with
  | none => []
  | some index =>
    let updatedSteps := mapAt steps index (fun s =>
      { s with title := newTitle, description := newDescription, status := .analyzing })
    updatedSteps :: executeStepTrace sheets an index updatedSteps updatedSteps

/-- The state `selectedSheetsMap : Map<number, Set<number>>`, modelled as an
insertion-ordered association list; the value set is an insertion-ordered
duplicate-free list, matching JavaScript `Map`/`Set` iteration order. -/
abbrev SelMap := List (Nat × List Nat)

/-- Model of `map.get(k)` (as an `Option`). -/
def selGet (m : SelMap) (k : Nat) : Option (List Nat) :=
  (m.find? (fun p => p.1 == k)).map (fun p => p.2)

/-- Model of `map.set(k, v)`: overwrite in place if the key exists (JavaScript `Map`
keeps the original insertion position), otherwise append. -/
def selSet (m : SelMap) (k : Nat) (v : List Nat) : SelMap :=
  if m.any (fun p => p.1 == k) then
    m.map (fun p => if p.1 = k then (k, v) else p)
  else m ++ [(k, v)]

/-- Model of `map.delete(k)`. -/
def selDelete (m : SelMap) (k : Nat) : SelMap :=
  m.filter (fun p => p.1 != k)

/-- Model of `set.delete(x)` on the ordered-list model of a `Set`. -/
def setRemove (s : List Nat) (x : Nat) : List Nat :=
  s.filter (fun y => y != x)

/-- Model of `set.add(x)` on the ordered-list model of a `Set`. -/
def setInsert (s : List Nat) (x : Nat) : List Nat :=
  if x ∈ s then s else s ++ [x]

/-- The `selectedSheetsMap` installed by `handleDataLoaded(dataArray)`:
empty, except `{0 → {0}}` when at least one file was loaded. -/
def handleDataLoadedSel (dataArray : List FileData) : SelMap :=
  if dataArray = [] then [] else [(0, [0])]

/-- The `stepAnalyses` installed by `handleDataLoaded`. -/
def handleDataLoadedSteps : List StepAnalysis := []

/-- The toggled sheet set built by `handleToggleSheet`: a copy of the
file's current set with `sheetIdx` removed if present, added otherwise. -/
def toggledSheetSet (m : SelMap) (fileIdx sheetIdx : Nat) : List Nat :=
  let s := (selGet m fileIdx).getD []
  if sheetIdx ∈ s then setRemove s sheetIdx else setInsert s sheetIdx

/-- The new `selectedSheetsMap` computed by `handleToggleSheet(fileIdx,
sheetIdx)`: delete the file's entry when the toggled set became empty,
otherwise store the toggled set. -/
def handleToggleSheet (m : SelMap) (fileIdx sheetIdx : Nat) : SelMap :=
  if toggledSheetSet m fileIdx sheetIdx = [] then selDelete m fileIdx
  else selSet m fileIdx (toggledSheetSet m fileIdx sheetIdx)

/-- The new `selectedSheetsMap` computed by `handleToggleFile(fileIdx)`.
When `fileDatas` is `null` the handler returns without updating; when
`fileDatas[fileIdx]` is `undefined`, reading `file.sheets` throws before
any `setSelectedSheetsMap` call, so the state is also unchanged. -/
def handleToggleFileWith (files : List FileData) (m : SelMap)
    (fileIdx : Nat) : SelMap :=
  match files[fileIdx]? with
  | none => m
  | some file =>
    if ((selGet m fileIdx).getD []).length = file.sheets.length then
      selDelete m fileIdx
    else selSet m fileIdx (List.range file.sheets.length)

def handleToggleFile (fileDatas : Option (List FileData)) (m : SelMap)
    (fileIdx : Nat) : SelMap :=
  match fileDatas with
  | none => m
  | some files => handleToggleFileWith files m fileIdx

/-- The `selectedSheetsMap` installed by `reset`. -/
def resetSel : SelMap := []

/-- The `stepAnalyses` installed by `reset`. -/
def resetSteps : List StepAnalysis := []

/-- The invariant claimed for the selection map: every file entry carries a
non-empty sheet-index set. -/
def SelInvariant (m : SelMap) : Prop := ∀ p ∈ m, p.2 ≠ []

instance (m : SelMap) : Decidable (SelInvariant m) := by
  unfold SelInvariant; infer_instance

/-- The `activeSheets` memo: iterate the selection map in insertion order,
then each file's selected sheet indices in insertion order; a missing file
contributes nothing (the `if (fileDatas[fIdx])` guard), while a present
file with an out-of-range sheet index pushes `undefined` (modelled as
`none`). -/
def activeSheets (fileDatas : Option (List FileData)) (m : SelMap) :
    List (Option SheetData) :=
  match fileDatas with
  | none => []
  | some files =>
    (m.map (fun p =>
      p.2.filterMap (fun sIdx =>
        match files[p.1]? with
        | none => none
        | some file => some file.sheets[sIdx]?))).flatten

/-- The outcome of the `try` block of `executeStep`: reading
`currentSteps[index]` out of range makes the `analyzeSingleStep` argument
evaluation throw (`.error`), otherwise the external call decides. -/
def execOutcome (sheets : List SheetData) (an : AnalyzeFn) (index : Nat)
    (currentSteps : List StepAnalysis) : Except Unit StepResult :=
  match currentSteps[index]? with
  | none => .error ()
  | some step =>
    an step.title step.description (combinedSample sheets) (combinedColumns sheets)

/-- The second per-step update of `executeStep`, as a function of the
`try` outcome: `'done'` with the returned result, or `'error'`. -/
def execFinal (o : Except Unit StepResult) : StepAnalysis → StepAnalysis :=
  match o with
  | .ok r => fun s => { s with status := .done, result := some r }
  | .error _ => fun s => { s with status := .error }

/-- The statuses step `i` goes through along a trace of states. -/
def statusesAt (tr : List (List StepAnalysis)) (i : Nat) : List Status :=
  tr.filterMap (fun st => (st[i]?).map (fun s => s.status))

/-- Collapse consecutive repetitions, leaving the order of distinct
successive statuses. -/
def squeeze : List Status → List Status
  | [] => []
  | [a] => [a]
  | a :: b :: rest => if a = b then squeeze (b :: rest) else a :: squeeze (b :: rest)

/-- How many steps of a state are currently `'analyzing'`. -/
def countAnalyzing (l : List StepAnalysis) : Nat :=
  l.countP (fun s => s.status == Status.analyzing)

/-- Spec-side reading (for the parsing claim): the text before the first
`':'` of the string, the whole string when there is no colon. -/
def specTitleText (s : Str) : Str := s.takeWhile (fun c => c ≠ ':')

/-- The text strictly after the first `':'` of the string. -/
def restAfterColon (s : Str) : Str :=
  (s.dropWhile (fun c => c ≠ ':')).drop 1

/-- Spec-side reading: the text after the first `':'`, with any later
colons preserved; empty when there is no colon. -/
def specDescText (s : Str) : Str :=
  if ':' ∈ s then restAfterColon s else []

/-- Spec-side reading of the `'Title: Description'` parse: title is the
text before the first colon, trimmed, with the positional fallback;
description is the text after the first colon, trimmed, falling back to
the whole string when empty. -/
def specParse (idx : Nat) (s : Str) : Str × Str :=
  let t := trimStr (specTitleText s)
  let d := trimStr (specDescText s)
  (if t = [] then defaultTitle idx else t, if d = [] then s else d)


/-! ### Concrete instances used to exercise the theorems -/

def exampleCat : FieldCategorization := ⟨[], [], [], [], [], []⟩

def exampleSheet : SheetData :=
  { name := "s1".data,
    rows := [[("c".data, "v1".data)], [("c".data, "v2".data)]],
    columns := ["c".data, "d".data],
    fieldCategorization := exampleCat }

def exampleResult : StepResult :=
  { summary := "ok".data, insights := [], charts := [] }

def exampleAnalyzeOk : AnalyzeFn := fun _ _ _ _ => .ok exampleResult

def exampleAnalyzeThrow : AnalyzeFn := fun _ _ _ _ => .error ()

def exampleSteps : List StepAnalysis := mkInitialSteps 5 ["a:b".data, "c:d".data]

def exampleFileNoSheets : FileData :=
  { name := "f".data, sheets := [], activeSheetIndex := 0 }

/-! ### Basic lemmas about `mapAt` -/

theorem mapAt_nil (j : Nat) (f : StepAnalysis → StepAnalysis) :
    mapAt [] j f = [] := by
  simp [mapAt]

theorem mapAt_cons_zero (a : StepAnalysis) (t : List StepAnalysis)
    (f : StepAnalysis → StepAnalysis) : mapAt (a :: t) 0 f = f a :: t := by
  simp [mapAt]

theorem mapAt_cons_succ (a : StepAnalysis) (t : List StepAnalysis) (j : Nat)
    (f : StepAnalysis → StepAnalysis) :
    mapAt (a :: t) (j + 1) f = a :: mapAt t j f := by
  simp only [mapAt, List.getElem?_cons_succ]
  cases h : t[j]? <;> simp [h]

theorem mapAt_ne (l : List StepAnalysis) (j i : Nat)
    (f : StepAnalysis → StepAnalysis) (h : i ≠ j) :
    (mapAt l j f)[i]? = l[i]? := by
  induction l generalizing i j with
  | nil => simp [mapAt_nil]
  | cons a t ih =>
    cases j with
    | zero =>
      cases i with
      | zero => exact absurd rfl h
      | succ i => simp [mapAt_cons_zero]
    | succ j =>
      cases i with
      | zero => simp [mapAt_cons_succ]
      | succ i =>
        simp only [mapAt_cons_succ, List.getElem?_cons_succ]
        exact ih j i (fun hc => h (by omega))

theorem mapAt_self (l : List StepAnalysis) (j : Nat)
    (f : StepAnalysis → StepAnalysis) :
    (mapAt l j f)[j]? = (l[j]?).map f := by
  induction l generalizing j with
  | nil => simp [mapAt_nil]
  | cons a t ih =>
    cases j with
    | zero => simp [mapAt_cons_zero]
    | succ j => simp only [mapAt_cons_succ, List.getElem?_cons_succ]; exact ih j

theorem mapAt_length (l : List StepAnalysis) (j : Nat)
    (f : StepAnalysis → StepAnalysis) : (mapAt l j f).length = l.length := by
  induction l generalizing j with
  | nil => simp [mapAt_nil]
  | cons a t ih =>
    cases j with
    | zero => simp [mapAt_cons_zero]
    | succ j => simp [mapAt_cons_succ, ih j]

theorem mapAt_map {α : Type} (g : StepAnalysis → α) (l : List StepAnalysis)
    (j : Nat) (f : StepAnalysis → StepAnalysis) (hf : ∀ s, g (f s) = g s) :
    (mapAt l j f).map g = l.map g := by
  induction l generalizing j with
  | nil => simp [mapAt_nil]
  | cons a t ih =>
    cases j with
    | zero => simp [mapAt_cons_zero, hf]
    | succ j => simp [mapAt_cons_succ, ih j]

/-! ### `getLastD` facts -/

theorem getLastD_append {α : Type} (l₁ l₂ : List α) (d : α) :
    (l₁ ++ l₂).getLastD d = l₂.getLastD (l₁.getLastD d) := by
  induction l₁ generalizing d with
  | nil => rfl
  | cons a t ih =>
    cases t with
    | nil => cases l₂ <;> simp [List.getLastD]
    | cons b t' => simpa using ih a

theorem getLastD_pair {α : Type} (a b d : α) :
    ([a, b] : List α).getLastD d = b := rfl

/-! ### Shape and frame lemmas for `executeStepTrace` -/

theorem executeStepTrace_nil (an : AnalyzeFn) (j : Nat)
    (cs cur : List StepAnalysis) : executeStepTrace [] an j cs cur = [] := rfl

theorem executeStepTrace_eq (sheets : List SheetData) (an : AnalyzeFn) (j : Nat)
    (cs cur : List StepAnalysis) (hs : sheets ≠ []) :
    executeStepTrace sheets an j cs cur =
      [mapAt cur j (fun s => { s with status := .analyzing }),
       mapAt (mapAt cur j (fun s => { s with status := .analyzing })) j
         (execFinal (execOutcome sheets an j cs))] := by
  unfold executeStepTrace execOutcome execFinal
  rw [if_neg hs]
  cases h : cs[j]? with
  | none => simp
  | some step =>
    cases han : an step.title step.description (combinedSample sheets) (combinedColumns sheets) <;>
      simp [han]

theorem executeStepTrace_frame (sheets : List SheetData) (an : AnalyzeFn)
    (j : Nat) (cs cur : List StepAnalysis) (st : List StepAnalysis)
    (hst : st ∈ executeStepTrace sheets an j cs cur) (i : Nat) (hij : i ≠ j) :
    st[i]? = cur[i]? := by
  by_cases hs : sheets = []
  · subst hs; simp [executeStepTrace_nil] at hst
  · rw [executeStepTrace_eq sheets an j cs cur hs] at hst
    simp only [List.mem_cons, List.not_mem_nil, or_false] at hst
    rcases hst with h | h
    · rw [h, mapAt_ne _ _ _ _ hij]
    · rw [h, mapAt_ne _ _ _ _ hij, mapAt_ne _ _ _ _ hij]

theorem executeStepTrace_getLastD_frame (sheets : List SheetData)
    (an : AnalyzeFn) (j : Nat) (cs cur : List StepAnalysis) (i : Nat)
    (hij : i ≠ j) :
    ((executeStepTrace sheets an j cs cur).getLastD cur)[i]? = cur[i]? := by
  by_cases hs : sheets = []
  · subst hs; rfl
  · rw [executeStepTrace_eq sheets an j cs cur hs, getLastD_pair]
    rw [mapAt_ne _ _ _ _ hij, mapAt_ne _ _ _ _ hij]

theorem executeStepTrace_length (sheets : List SheetData) (an : AnalyzeFn)
    (j : Nat) (cs cur : List StepAnalysis) (st : List StepAnalysis)
    (hst : st ∈ executeStepTrace sheets an j cs cur) : st.length = cur.length := by
  by_cases hs : sheets = []
  · subst hs; simp [executeStepTrace_nil] at hst
  · rw [executeStepTrace_eq sheets an j cs cur hs] at hst
    simp only [List.mem_cons, List.not_mem_nil, or_false] at hst
    rcases hst with h | h
    · rw [h, mapAt_length]
    · rw [h, mapAt_length, mapAt_length]

/-- The status of the executed step along its own `executeStep` trace, and
in the final installed state: `'analyzing'` first, then the outcome
status. -/
theorem executeStepTrace_own (sheets : List SheetData) (an : AnalyzeFn)
    (j : Nat) (cs cur : List StepAnalysis) (c : StepAnalysis)
    (hs : sheets ≠ []) (hc : cur[j]? = some c) :
    ∃ X, (X = Status.done ∨ X = Status.error) ∧
      statusesAt (executeStepTrace sheets an j cs cur) j = [Status.analyzing, X] ∧
      (((executeStepTrace sheets an j cs cur).getLastD cur)[j]?).map
        (fun s => s.status) = some X := by
  rw [executeStepTrace_eq sheets an j cs cur hs]
  have h1 : (mapAt cur j (fun s => { s with status := .analyzing }))[j]? =
      some { c with status := Status.analyzing } := by
    rw [mapAt_self, hc]; rfl
  have h2 : (mapAt (mapAt cur j (fun s => { s with status := .analyzing })) j
      (execFinal (execOutcome sheets an j cs)))[j]? =
      some (execFinal (execOutcome sheets an j cs)
        { c with status := Status.analyzing }) := by
    rw [mapAt_self, h1]; rfl
  refine ⟨(execFinal (execOutcome sheets an j cs)
    { c with status := Status.analyzing }).status, ?_, ?_, ?_⟩
  · cases o : execOutcome sheets an j cs <;> simp [execFinal, o]
  · simp [statusesAt, List.filterMap_cons, h1, h2]
  · rw [getLastD_pair, h2]; rfl

/-! ### `runSteps` lemmas -/

theorem runSteps_nil_idx (sheets : List SheetData) (an : AnalyzeFn)
    (init cur : List StepAnalysis) : runSteps sheets an init [] cur = [] := rfl

theorem runSteps_cons (sheets : List SheetData) (an : AnalyzeFn)
    (init cur : List StepAnalysis) (j : Nat) (rest : List Nat) :
    runSteps sheets an init (j :: rest) cur =
      executeStepTrace sheets an j init cur ++
        runSteps sheets an init rest
          ((executeStepTrace sheets an j init cur).getLastD cur) := rfl

theorem runSteps_append (sheets : List SheetData) (an : AnalyzeFn)
    (init : List StepAnalysis) (l₁ l₂ : List Nat) (cur : List StepAnalysis) :
    runSteps sheets an init (l₁ ++ l₂) cur =
      runSteps sheets an init l₁ cur ++
        runSteps sheets an init l₂
          ((runSteps sheets an init l₁ cur).getLastD cur) := by
  induction l₁ generalizing cur with
  | nil => rfl
  | cons j rest ih =>
    simp only [List.cons_append, runSteps_cons, ih, List.append_assoc,
      getLastD_append]

theorem runSteps_frame (sheets : List SheetData) (an : AnalyzeFn)
    (init : List StepAnalysis) (i : Nat) (indices : List Nat) :
    ∀ cur, i ∉ indices →
      (∀ st ∈ runSteps sheets an init indices cur, st[i]? = cur[i]?) ∧
        ((runSteps sheets an init indices cur).getLastD cur)[i]? = cur[i]? := by
  induction indices with
  | nil => intro cur _; simp [runSteps_nil_idx]
  | cons j rest ih =>
    intro cur hi
    have hij : i ≠ j := fun h => hi (h ▸ List.mem_cons_self j rest)
    have hrest : i ∉ rest := fun h => hi (List.mem_cons_of_mem _ h)
    have hcur' := executeStepTrace_getLastD_frame sheets an j init cur i hij
    constructor
    · intro st hst
      rw [runSteps_cons] at hst
      rcases List.mem_append.mp hst with h | h
      · exact executeStepTrace_frame sheets an j init cur st h i hij
      · rw [(ih _ hrest).1 st h, hcur']
    · rw [runSteps_cons, getLastD_append, (ih _ hrest).2, hcur']

/-! ### Initial step list lemmas -/

theorem parseStep_status (now idx : Nat) (s : Str) :
    (parseStep now idx s).status = Status.pending := rfl

theorem mkStepsFrom_idx (now : Nat) (cs : List Str) :
    ∀ k i, (mkStepsFrom now k cs)[i]? =
      (cs[i]?).map (fun s => parseStep now (k + i) s) := by
  induction cs with
  | nil => intro k i; simp [mkStepsFrom]
  | cons s rest ih =>
    intro k i
    cases i with
    | zero => simp [mkStepsFrom]
    | succ i =>
      have harith : k + 1 + i = k + (i + 1) := by omega
      simp only [mkStepsFrom, List.getElem?_cons_succ, ih (k + 1) i, harith]

theorem mkInitialSteps_idx (now : Nat) (cs : List Str) (i : Nat) :
    (mkInitialSteps now cs)[i]? = (cs[i]?).map (fun s => parseStep now i s) := by
  simpa using mkStepsFrom_idx now cs 0 i

theorem mkStepsFrom_length (now : Nat) (cs : List Str) :
    ∀ k, (mkStepsFrom now k cs).length = cs.length := by
  induction cs with
  | nil => intro k; rfl
  | cons s rest ih => intro k; simp [mkStepsFrom, ih (k + 1)]

theorem mkInitialSteps_length (now : Nat) (cs : List Str) :
    (mkInitialSteps now cs).length = cs.length := mkStepsFrom_length now cs 0

theorem mkStepsFrom_pending (now : Nat) (cs : List Str) :
    ∀ k, ∀ p ∈ mkStepsFrom now k cs, p.status = Status.pending := by
  induction cs with
  | nil => intro k p hp; simp [mkStepsFrom] at hp
  | cons s rest ih =>
    intro k p hp
    rcases List.mem_cons.mp hp with h | h
    · rw [h]; rfl
    · exact ih (k + 1) p h

/-! ### `statusesAt` and `squeeze` lemmas -/

theorem statusesAt_append (t₁ t₂ : List (List StepAnalysis)) (i : Nat) :
    statusesAt (t₁ ++ t₂) i = statusesAt t₁ i ++ statusesAt t₂ i := by
  simp [statusesAt]

theorem statusesAt_cons (st : List StepAnalysis) (tr : List (List StepAnalysis))
    (i : Nat) :
    statusesAt (st :: tr) i =
      match st[i]? with
      | some s => s.status :: statusesAt tr i
      | none => statusesAt tr i := by
  cases h : st[i]? <;> simp [statusesAt, List.filterMap_cons, h]

theorem statusesAt_const (tr : List (List StepAnalysis)) (i : Nat)
    (p : StepAnalysis) (h : ∀ st ∈ tr, st[i]? = some p) :
    ∀ x ∈ statusesAt tr i, x = p.status := by
  intro x hx
  rcases List.mem_filterMap.mp hx with ⟨st, hst, hf⟩
  rw [h st hst] at hf
  simpa using hf.symm

theorem squeeze_pair_ne (a b : Status) (h : ¬ a = b) :
    squeeze (a :: b :: []) = [a, b] := by
  simp [squeeze, h]

theorem squeeze_cons_ne (a b : Status) (l : List Status) (h : ¬ a = b) :
    squeeze (a :: b :: l) = a :: squeeze (b :: l) := by
  simp [squeeze, h]

theorem squeeze_cons_dup (a : Status) (l : List Status) :
    squeeze (a :: a :: l) = squeeze (a :: l) := by
  simp [squeeze]

theorem squeeze_absorb (a : Status) (L : List Status) :
    ∀ r, (∀ x ∈ L, x = a) → squeeze (a :: (L ++ r)) = squeeze (a :: r) := by
  induction L with
  | nil => intro r _; rfl
  | cons x L' ih =>
    intro r h
    have hx : x = a := h x (List.mem_cons_self x L')
    subst hx
    rw [List.cons_append, squeeze_cons_dup]
    exact ih r (fun y hy => h y (List.mem_cons_of_mem _ hy))

theorem statusesAt_cons_some (st : List StepAnalysis)
    (tr : List (List StepAnalysis)) (i : Nat) (s : StepAnalysis)
    (h : st[i]? = some s) :
    statusesAt (st :: tr) i = s.status :: statusesAt tr i := by
  simp [statusesAt, List.filterMap_cons, h]

theorem squeeze_const (a : Status) (L : List Status) (h : ∀ x ∈ L, x = a) :
    squeeze (a :: L) = [a] := by
  have habs := squeeze_absorb a L [] h
  rw [List.append_nil] at habs
  rw [habs]
  rfl

/-- C1 — For every analysis step, its status follows the lifecycle
`pending → analyzing → done|error`: along the whole trace of one
`runAnalysis` execution, the successive statuses of step `i` (consecutive
repetitions collapsed) are `[pending]` (when no sheet is selected and the
external call never happens), `[pending, analyzing, done]`, or
`[pending, analyzing, error]` — no other status values and no other
order. -/
theorem runAnalysis_step_lifecycle (sheets : List SheetData) (an : AnalyzeFn)
    (now : Nat) (cs : List Str) (i : Nat) (hcs : cs ≠ []) (hi : i < cs.length) :
    squeeze (statusesAt (runAnalysisTrace sheets an now (some cs)) i) =
        [Status.pending] ∨
      squeeze (statusesAt (runAnalysisTrace sheets an now (some cs)) i) =
        [Status.pending, Status.analyzing, Status.done] ∨
      squeeze (statusesAt (runAnalysisTrace sheets an now (some cs)) i) =
        [Status.pending, Status.analyzing, Status.error] := by
  have htr : runAnalysisTrace sheets an now (some cs) =
      mkInitialSteps now cs ::
        runSteps sheets an (mkInitialSteps now cs) (List.range cs.length)
          (mkInitialSteps now cs) := by
    simp only [runAnalysisTrace, if_neg hcs]
  have hsplit : List.range cs.length =
      List.range' 0 i ++ (i :: List.range' (i + 1) (cs.length - i - 1)) := by
    have h2 : i :: List.range' (i + 1) (cs.length - i - 1) =
        List.range' i (cs.length - i - 1 + 1) :=
      (List.range'_succ i (cs.length - i - 1) 1).symm
    rw [h2, List.range_eq_range']
    have h3 := List.range'_append_1 0 i (cs.length - i - 1 + 1)
    rw [Nat.zero_add] at h3
    rw [h3]
    congr 1
    omega
  obtain ⟨s0, hcs_i⟩ : ∃ s0, cs[i]? = some s0 :=
    ⟨cs[i], List.getElem?_eq_getElem hi⟩
  have hp : (mkInitialSteps now cs)[i]? = some (parseStep now i s0) := by
    rw [mkInitialSteps_idx, hcs_i]; rfl
  have hmem1 : i ∉ List.range' 0 i := by
    simp only [List.mem_range'_1]
    omega
  have hmem2 : i ∉ List.range' (i + 1) (cs.length - i - 1) := by
    simp only [List.mem_range'_1]
    omega
  have hfr1 := runSteps_frame sheets an (mkInitialSteps now cs) i
    (List.range' 0 i) (mkInitialSteps now cs) hmem1
  have hL1 : ∀ x ∈ statusesAt
      (runSteps sheets an (mkInitialSteps now cs) (List.range' 0 i)
        (mkInitialSteps now cs)) i, x = Status.pending := by
    intro x hx
    exact statusesAt_const _ i (parseStep now i s0)
      (fun st hst => by rw [hfr1.1 st hst, hp]) x hx
  have hcur1_i : ((runSteps sheets an (mkInitialSteps now cs) (List.range' 0 i)
      (mkInitialSteps now cs)).getLastD (mkInitialSteps now cs))[i]? =
      some (parseStep now i s0) := by
    rw [hfr1.2, hp]
  rw [htr, hsplit, runSteps_append, runSteps_cons,
    statusesAt_cons_some _ _ _ _ hp, statusesAt_append, statusesAt_append,
    parseStep_status]
  by_cases hs : sheets = []
  · left
    subst hs
    have hfr2 := runSteps_frame [] an (mkInitialSteps now cs) i
      (List.range' (i + 1) (cs.length - i - 1))
      ((executeStepTrace [] an i (mkInitialSteps now cs)
        ((runSteps [] an (mkInitialSteps now cs) (List.range' 0 i)
          (mkInitialSteps now cs)).getLastD (mkInitialSteps now cs))).getLastD
        ((runSteps [] an (mkInitialSteps now cs) (List.range' 0 i)
          (mkInitialSteps now cs)).getLastD (mkInitialSteps now cs)))
      hmem2
    refine squeeze_const _ _ ?_
    intro x hx
    rcases List.mem_append.mp hx with h | h
    · exact hL1 x h
    · rcases List.mem_append.mp h with h' | h'
      · rw [executeStepTrace_nil] at h'
        simp [statusesAt] at h'
      · have hcur2p : (((executeStepTrace [] an i (mkInitialSteps now cs)
            ((runSteps [] an (mkInitialSteps now cs) (List.range' 0 i)
              (mkInitialSteps now cs)).getLastD (mkInitialSteps now cs))).getLastD
            ((runSteps [] an (mkInitialSteps now cs) (List.range' 0 i)
              (mkInitialSteps now cs)).getLastD (mkInitialSteps now cs))))[i]? =
            some (parseStep now i s0) := by
          rw [executeStepTrace_nil]
          exact hcur1_i
        exact statusesAt_const _ i (parseStep now i s0)
          (fun st hst => by rw [hfr2.1 st hst, hcur2p]) x h'
  · obtain ⟨X, hXcases, hEst, hfin⟩ :=
      executeStepTrace_own sheets an i (mkInitialSteps now cs)
        ((runSteps sheets an (mkInitialSteps now cs) (List.range' 0 i)
          (mkInitialSteps now cs)).getLastD (mkInitialSteps now cs))
        (parseStep now i s0) hs hcur1_i
    obtain ⟨q, hq, hqX⟩ : ∃ q,
        (((executeStepTrace sheets an i (mkInitialSteps now cs)
          ((runSteps sheets an (mkInitialSteps now cs) (List.range' 0 i)
            (mkInitialSteps now cs)).getLastD (mkInitialSteps now cs))).getLastD
          ((runSteps sheets an (mkInitialSteps now cs) (List.range' 0 i)
            (mkInitialSteps now cs)).getLastD (mkInitialSteps now cs))))[i]? =
          some q ∧ q.status = X := by
      cases hq2 : (((executeStepTrace sheets an i (mkInitialSteps now cs)
          ((runSteps sheets an (mkInitialSteps now cs) (List.range' 0 i)
            (mkInitialSteps now cs)).getLastD (mkInitialSteps now cs))).getLastD
          ((runSteps sheets an (mkInitialSteps now cs) (List.range' 0 i)
            (mkInitialSteps now cs)).getLastD (mkInitialSteps now cs))))[i]? with
      | none => rw [hq2] at hfin; cases hfin
      | some q =>
        rw [hq2] at hfin
        exact ⟨q, rfl, by simpa using hfin⟩
    have hfr2 := runSteps_frame sheets an (mkInitialSteps now cs) i
      (List.range' (i + 1) (cs.length - i - 1))
      ((executeStepTrace sheets an i (mkInitialSteps now cs)
        ((runSteps sheets an (mkInitialSteps now cs) (List.range' 0 i)
          (mkInitialSteps now cs)).getLastD (mkInitialSteps now cs))).getLastD
        ((runSteps sheets an (mkInitialSteps now cs) (List.range' 0 i)
          (mkInitialSteps now cs)).getLastD (mkInitialSteps now cs)))
      hmem2
    have hL2 : ∀ x ∈ statusesAt
        (runSteps sheets an (mkInitialSteps now cs)
          (List.range' (i + 1) (cs.length - i - 1))
          ((executeStepTrace sheets an i (mkInitialSteps now cs)
            ((runSteps sheets an (mkInitialSteps now cs) (List.range' 0 i)
              (mkInitialSteps now cs)).getLastD (mkInitialSteps now cs))).getLastD
            ((runSteps sheets an (mkInitialSteps now cs) (List.range' 0 i)
              (mkInitialSteps now cs)).getLastD (mkInitialSteps now cs)))) i,
        x = X := by
      intro x hx
      have hxq := statusesAt_const _ i q
        (fun st hst => by rw [hfr2.1 st hst, hq]) x hx
      rw [hqX] at hxq
      exact hxq
    rw [hEst, squeeze_absorb _ _ _ hL1]
    simp only [List.cons_append, List.nil_append]
    rcases hXcases with hX | hX
    · subst hX
      right; left
      rw [squeeze_cons_ne _ _ _ (by decide), squeeze_cons_ne _ _ _ (by decide),
        squeeze_const _ _ hL2]
    · subst hX
      right; right
      rw [squeeze_cons_ne _ _ _ (by decide), squeeze_cons_ne _ _ _ (by decide),
        squeeze_const _ _ hL2]

/-- Witness for the lifecycle theorem at a concrete run. -/
theorem runAnalysis_step_lifecycle_witness :
    squeeze (statusesAt (runAnalysisTrace [exampleSheet] exampleAnalyzeOk 5
        (some ["a:b".data])) 0) = [Status.pending] ∨
      squeeze (statusesAt (runAnalysisTrace [exampleSheet] exampleAnalyzeOk 5
        (some ["a:b".data])) 0) = [Status.pending, Status.analyzing, Status.done] ∨
      squeeze (statusesAt (runAnalysisTrace [exampleSheet] exampleAnalyzeOk 5
        (some ["a:b".data])) 0) = [Status.pending, Status.analyzing, Status.error] :=
  runAnalysis_step_lifecycle [exampleSheet] exampleAnalyzeOk 5 ["a:b".data] 0
    (by decide) (by decide)

/-! ### Counting analyzing steps (for the serial-execution claim) -/

theorem execFinal_status_ne (o : Except Unit StepResult) (s : StepAnalysis) :
    ((execFinal o s).status == Status.analyzing) = false := by
  cases o <;> simp [execFinal]

theorem countAnalyzing_mapAt_le (l : List StepAnalysis) (j : Nat)
    (f : StepAnalysis → StepAnalysis) (h : countAnalyzing l = 0) :
    countAnalyzing (mapAt l j f) ≤ 1 := by
  induction l generalizing j with
  | nil => simp [mapAt_nil, countAnalyzing] at h ⊢
  | cons a t ih =>
    have ht : countAnalyzing t = 0 := by
      simp only [countAnalyzing, List.countP_cons] at h ⊢
      omega
    cases j with
    | zero =>
      simp only [mapAt_cons_zero, countAnalyzing, List.countP_cons]
      have h0 : List.countP (fun s => s.status == Status.analyzing) t = 0 := ht
      rw [h0]
      split <;> omega
    | succ j =>
      simp only [mapAt_cons_succ, countAnalyzing, List.countP_cons]
      have hle := ih j ht
      simp only [countAnalyzing] at hle
      have ha : ¬ (a.status == Status.analyzing) = true := by
        simp only [countAnalyzing, List.countP_cons] at h
        intro hc
        rw [if_pos hc] at h
        omega
      rw [if_neg ha]
      omega

theorem executeStepTrace_count (sheets : List SheetData) (an : AnalyzeFn)
    (j : Nat) (cs cur : List StepAnalysis) (h : countAnalyzing cur = 0) :
    (∀ st ∈ executeStepTrace sheets an j cs cur, countAnalyzing st ≤ 1) ∧
      countAnalyzing ((executeStepTrace sheets an j cs cur).getLastD cur) = 0 := by
  by_cases hs : sheets = []
  · subst hs
    constructor
    · intro st hst; simp [executeStepTrace_nil] at hst
    · simpa using h
  · rw [executeStepTrace_eq sheets an j cs cur hs]
    have hcur_mem : ∀ x ∈ cur, (x.status == Status.analyzing) = false := by
      intro x hx
      have := List.countP_eq_zero.mp h x hx
      simpa using this
    have hs2 : countAnalyzing (mapAt (mapAt cur j
        (fun s => { s with status := .analyzing })) j
        (execFinal (execOutcome sheets an j cs))) = 0 := by
      refine List.countP_eq_zero.mpr ?_
      intro x hx
      rcases List.mem_iff_getElem?.mp hx with ⟨idx, hidx⟩
      by_cases hij : idx = j
      · subst hij
        rw [mapAt_self] at hidx
        cases h1 : (mapAt cur idx (fun s => { s with status := .analyzing }))[idx]? with
        | none => rw [h1] at hidx; cases hidx
        | some y =>
          rw [h1] at hidx
          have hx_eq : x = execFinal (execOutcome sheets an idx cs) y := by
            have hsome : some (execFinal (execOutcome sheets an idx cs) y) = some x := by
              simpa using hidx
            exact (Option.some.inj hsome).symm
          rw [hx_eq]
          simpa using execFinal_status_ne (execOutcome sheets an idx cs) y
      · rw [mapAt_ne _ _ _ _ hij, mapAt_ne _ _ _ _ hij] at hidx
        have hxmem : x ∈ cur := List.getElem?_mem hidx
        simpa using hcur_mem x hxmem
    constructor
    · intro st hst
      simp only [List.mem_cons, List.not_mem_nil, or_false] at hst
      rcases hst with h1 | h1
      · rw [h1]; exact countAnalyzing_mapAt_le cur j _ h
      · rw [h1, hs2]; omega
    · rw [getLastD_pair, hs2]

theorem runSteps_count (sheets : List SheetData) (an : AnalyzeFn)
    (init : List StepAnalysis) (indices : List Nat) :
    ∀ cur, countAnalyzing cur = 0 →
      (∀ st ∈ runSteps sheets an init indices cur, countAnalyzing st ≤ 1) ∧
        countAnalyzing ((runSteps sheets an init indices cur).getLastD cur) = 0 := by
  induction indices with
  | nil => intro cur h; constructor
           · intro st hst; simp [runSteps_nil_idx] at hst
           · simpa using h
  | cons j rest ih =>
    intro cur h
    have hexec := executeStepTrace_count sheets an j init cur h
    have hrest := ih ((executeStepTrace sheets an j init cur).getLastD cur) hexec.2
    constructor
    · intro st hst
      rw [runSteps_cons] at hst
      rcases List.mem_append.mp hst with h1 | h1
      · exact hexec.1 st h1
      · exact hrest.1 st h1
    · rw [runSteps_cons, getLastD_append]
      exact hrest.2

/-- C2 — `runAnalysis` executes its steps serially: its trace is, by
construction, the sequential concatenation of the per-step `executeStep`
traces, each started from the state the previous one settled on; as a
consequence, in every state installed during a `runAnalysis` execution at
most one step has status `'analyzing'`. -/
theorem runAnalysis_serial_one_analyzing (sheets : List SheetData)
    (an : AnalyzeFn) (now : Nat) (customSteps : Option (List Str)) :
    ∀ st ∈ runAnalysisTrace sheets an now customSteps, countAnalyzing st ≤ 1 := by
  intro st hst
  match customSteps with
  | none => simp [runAnalysisTrace] at hst
  | some cs =>
    by_cases hcs : cs = []
    · subst hcs; simp [runAnalysisTrace] at hst
    · simp only [runAnalysisTrace, if_neg hcs] at hst
      have hinit0 : countAnalyzing (mkInitialSteps now cs) = 0 := by
        refine List.countP_eq_zero.mpr ?_
        intro p hp
        have := mkStepsFrom_pending now cs 0 p hp
        simp [this]
      rcases List.mem_cons.mp hst with h1 | h1
      · rw [h1, hinit0]; omega
      · exact (runSteps_count sheets an (mkInitialSteps now cs)
          (List.range cs.length) (mkInitialSteps now cs) hinit0).1 st h1

/-- Witness for the at-most-one-analyzing theorem at a concrete run. -/
theorem runAnalysis_serial_one_analyzing_witness :
    countAnalyzing ((runAnalysisTrace [exampleSheet] exampleAnalyzeOk 5
      (some ["a:b".data, "c:d".data])).getLastD []) ≤ 1 :=
  runAnalysis_serial_one_analyzing [exampleSheet] exampleAnalyzeOk 5
    (some ["a:b".data, "c:d".data])
    ((runAnalysisTrace [exampleSheet] exampleAnalyzeOk 5
      (some ["a:b".data, "c:d".data])).getLastD [])
    (by decide)

/-! ### Frame effect of re-analyzing one step (C3) -/

/-- C3 — `handleReAnalyzeStep(id, newTitle, newDescription)`: when `id`
matches a step, every state it installs (the initial edit and every
`executeStep` update) leaves all steps other than the matched index
untouched; when `id` matches nothing, no state is installed at all. -/
theorem handleReAnalyzeStep_frame (sheets : List SheetData) (an : AnalyzeFn)
    (steps : List StepAnalysis) (id newTitle newDescription : Str) :
    (∀ index, steps.findIdx? (fun s => s.id == id) = some index →
      ∀ st ∈ handleReAnalyzeStepTrace sheets an steps id newTitle newDescription,
        ∀ j, j ≠ index → st[j]? = steps[j]?) ∧
      (steps.findIdx? (fun s => s.id == id) = none →
        handleReAnalyzeStepTrace sheets an steps id newTitle newDescription = []) := by
  constructor
  · intro index hidx st hst j hj
    simp only [handleReAnalyzeStepTrace, hidx] at hst
    rcases List.mem_cons.mp hst with h1 | h1
    · rw [h1, mapAt_ne _ _ _ _ hj]
    · rw [executeStepTrace_frame _ _ _ _ _ _ h1 _ hj, mapAt_ne _ _ _ _ hj]
  · intro hnone
    simp [handleReAnalyzeStepTrace, hnone]

/-- Witness: re-analyzing the first example step leaves the second step's
entry unchanged in the first installed state. -/
theorem handleReAnalyzeStep_frame_witness :
    ((handleReAnalyzeStepTrace [exampleSheet] exampleAnalyzeOk exampleSteps
      (stepId 5 0) "T".data "D".data).headD [])[1]? = exampleSteps[1]? :=
  (handleReAnalyzeStep_frame [exampleSheet] exampleAnalyzeOk exampleSteps
      (stepId 5 0) "T".data "D".data).1 0 (by decide)
    ((handleReAnalyzeStepTrace [exampleSheet] exampleAnalyzeOk exampleSteps
      (stepId 5 0) "T".data "D".data).headD []) (by decide) 1 (by decide)

/-! ### Per-field preservation lemmas (C5, C6) -/

theorem execFinal_map_inv {α : Type} (g : StepAnalysis → α)
    (hg : ∀ s x r, g { s with status := x, result := r } = g s)
    (o : Except Unit StepResult) (s : StepAnalysis) :
    g (execFinal o s) = g s := by
  cases o with
  | ok r => exact hg s Status.done (some r)
  | error e => exact hg s Status.error s.result

theorem executeStepTrace_map {α : Type} (g : StepAnalysis → α)
    (hg : ∀ s x r, g { s with status := x, result := r } = g s)
    (sheets : List SheetData) (an : AnalyzeFn) (j : Nat)
    (cs cur : List StepAnalysis) :
    ∀ st ∈ executeStepTrace sheets an j cs cur, st.map g = cur.map g := by
  intro st hst
  by_cases hs : sheets = []
  · subst hs; simp [executeStepTrace_nil] at hst
  · rw [executeStepTrace_eq sheets an j cs cur hs] at hst
    simp only [List.mem_cons, List.not_mem_nil, or_false] at hst
    have hana : ∀ s : StepAnalysis, g { s with status := .analyzing } = g s :=
      fun s => hg s Status.analyzing s.result
    rcases hst with h1 | h1
    · rw [h1, mapAt_map g _ _ _ hana]
    · rw [h1, mapAt_map g _ _ _ (execFinal_map_inv g hg _),
        mapAt_map g _ _ _ hana]

theorem runSteps_map {α : Type} (g : StepAnalysis → α)
    (hg : ∀ s x r, g { s with status := x, result := r } = g s)
    (sheets : List SheetData) (an : AnalyzeFn) (init : List StepAnalysis)
    (indices : List Nat) :
    ∀ cur,
      (∀ st ∈ runSteps sheets an init indices cur, st.map g = cur.map g) ∧
        ((runSteps sheets an init indices cur).getLastD cur).map g = cur.map g := by
  induction indices with
  | nil =>
    intro cur
    constructor
    · intro st hst; simp [runSteps_nil_idx] at hst
    · rfl
  | cons j rest ih =>
    intro cur
    have hlast : ((executeStepTrace sheets an j init cur).getLastD cur).map g =
        cur.map g := by
      by_cases hs : sheets = []
      · subst hs; rfl
      · exact executeStepTrace_map g hg sheets an j init cur _ (by
          rw [executeStepTrace_eq sheets an j init cur hs, getLastD_pair]
          simp)
    have hrest := ih ((executeStepTrace sheets an j init cur).getLastD cur)
    constructor
    · intro st hst
      rw [runSteps_cons] at hst
      rcases List.mem_append.mp hst with h1 | h1
      · exact executeStepTrace_map g hg sheets an j init cur st h1
      · rw [hrest.1 st h1, hlast]
    · rw [runSteps_cons, getLastD_append, hrest.2, hlast]

/-- C6 — No operation deletes an individual step: every state installed by
`executeStep` or `handleReAnalyzeStep` keeps exactly the ids (hence the
length) of the state it updates, every state installed by `runAnalysis`
keeps exactly the ids of its freshly built list (which it installs
wholesale), and `handleDataLoaded` and `reset` replace the list wholesale
with the empty list. -/
theorem steps_never_deleted (sheets : List SheetData) (an : AnalyzeFn)
    (now : Nat) :
    (∀ j cs cur, ∀ st ∈ executeStepTrace sheets an j cs cur,
        st.map (fun s => s.id) = cur.map (fun s => s.id)) ∧
      (∀ steps id newTitle newDescription,
        ∀ st ∈ handleReAnalyzeStepTrace sheets an steps id newTitle newDescription,
          st.map (fun s => s.id) = steps.map (fun s => s.id)) ∧
      (∀ cs, ∀ st ∈ runAnalysisTrace sheets an now (some cs),
        st.map (fun s => s.id) = (mkInitialSteps now cs).map (fun s => s.id)) ∧
      runAnalysisTrace sheets an now none = [] ∧
      handleDataLoadedSteps = [] ∧ resetSteps = [] := by
  have hg : ∀ (s : StepAnalysis) (x : Status) (r : Option StepResult),
      ({ s with status := x, result := r } : StepAnalysis).id = s.id :=
    fun _ _ _ => rfl
  refine ⟨?_, ?_, ?_, rfl, rfl, rfl⟩
  · intro j cs cur st hst
    exact executeStepTrace_map _ hg sheets an j cs cur st hst
  · intro steps id newTitle newDescription st hst
    cases hidx : steps.findIdx? (fun s => s.id == id) with
    | none => simp [handleReAnalyzeStepTrace, hidx] at hst
    | some index =>
      simp only [handleReAnalyzeStepTrace, hidx] at hst
      rcases List.mem_cons.mp hst with h1 | h1
      · rw [h1]
        exact mapAt_map _ _ _ _ (fun _ => rfl)
      · rw [executeStepTrace_map _ hg sheets an index _ _ st h1]
        exact mapAt_map _ _ _ _ (fun _ => rfl)
  · intro cs st hst
    by_cases hcs : cs = []
    · subst hcs; simp [runAnalysisTrace] at hst
    · simp only [runAnalysisTrace, if_neg hcs] at hst
      rcases List.mem_cons.mp hst with h1 | h1
      · rw [h1]
      · exact (runSteps_map _ hg sheets an (mkInitialSteps now cs)
          (List.range cs.length) (mkInitialSteps now cs)).1 st h1

/-- Witness: the ids of the final state of a concrete `runAnalysis` run
equal the ids of the freshly built step list. -/
theorem steps_never_deleted_witness :
    ((runAnalysisTrace [exampleSheet] exampleAnalyzeOk 5
        (some ["a:b".data, "c:d".data])).getLastD []).map (fun s => s.id) =
      (mkInitialSteps 5 ["a:b".data, "c:d".data]).map (fun s => s.id) :=
  (steps_never_deleted [exampleSheet] exampleAnalyzeOk 5).2.2.1
    ["a:b".data, "c:d".data]
    ((runAnalysisTrace [exampleSheet] exampleAnalyzeOk 5
      (some ["a:b".data, "c:d".data])).getLastD []) (by decide)

/-! ### The result of a done step is exactly the external result (C7) -/

/-- C7 — Whenever a step reaches `'done'`, the state installed for it
carries exactly the value the external `analyzeSingleStep(step.title,
step.description, combinedSample, combinedColumns)` call resolved with:
the final state of `executeStep` is the old entry with only the status
set to `'done'` and the result set to the returned value, for every
possible external function `an` — the orchestrator computes no summary,
insight, or chart itself. -/
theorem done_result_is_external (sheets : List SheetData) (an : AnalyzeFn)
    (j : Nat) (cs cur : List StepAnalysis) (step c : StepAnalysis)
    (r : StepResult) (hs : sheets ≠ []) (hstep : cs[j]? = some step)
    (hc : cur[j]? = some c)
    (hok : an step.title step.description (combinedSample sheets)
      (combinedColumns sheets) = .ok r) :
    ((executeStepTrace sheets an j cs cur).getLastD cur)[j]? =
      some { c with status := .done, result := some r } := by
  have ho : execOutcome sheets an j cs = .ok r := by
    simp [execOutcome, hstep, hok]
  rw [executeStepTrace_eq sheets an j cs cur hs, getLastD_pair, mapAt_self,
    mapAt_self, hc, ho]
  rfl

/-- Witness for the result pass-through at a concrete input. -/
theorem done_result_is_external_witness :
    ((executeStepTrace [exampleSheet] exampleAnalyzeOk 0 exampleSteps
        exampleSteps).getLastD exampleSteps)[0]? =
      some { (parseStep 5 0 "a:b".data) with
             status := .done, result := some exampleResult } :=
  done_result_is_external [exampleSheet] exampleAnalyzeOk 0 exampleSteps
    exampleSteps (parseStep 5 0 "a:b".data) (parseStep 5 0 "a:b".data)
    exampleResult (by decide) (by decide) (by decide) rfl

/-! ### Empty selection leaves everything untouched (C9) -/

theorem runSteps_sheets_nil (an : AnalyzeFn) (init : List StepAnalysis)
    (indices : List Nat) :
    ∀ cur, runSteps [] an init indices cur = [] := by
  induction indices with
  | nil => intro cur; rfl
  | cons j rest ih =>
    intro cur
    rw [runSteps_cons, executeStepTrace_nil, ih]
    rfl

/-- C9 — With an empty `activeSheets`, `executeStep` returns before any
state update; hence `runAnalysis` installs only the freshly built list,
all of whose steps stay `'pending'`, and `handleReAnalyzeStep` installs
only its initial edit, which leaves the matched step stuck at
`'analyzing'` with its previous result. -/
theorem empty_selection_noop (an : AnalyzeFn) (now : Nat)
    (steps : List StepAnalysis) (id newTitle newDescription : Str) :
    (∀ j cs cur, executeStepTrace [] an j cs cur = []) ∧
      (∀ cs, cs ≠ [] →
        runAnalysisTrace [] an now (some cs) = [mkInitialSteps now cs] ∧
          ∀ p ∈ mkInitialSteps now cs, p.status = Status.pending) ∧
      (∀ index, steps.findIdx? (fun s => s.id == id) = some index →
        handleReAnalyzeStepTrace [] an steps id newTitle newDescription =
          [mapAt steps index (fun s =>
            { s with
              title := newTitle, description := newDescription,
              status := Status.analyzing })] ∧
          (((handleReAnalyzeStepTrace [] an steps id newTitle
            newDescription).headD [])[index]?).map (fun s => s.status) =
            some Status.analyzing) := by
  refine ⟨fun j cs cur => executeStepTrace_nil an j cs cur, ?_, ?_⟩
  · intro cs hcs
    constructor
    · simp only [runAnalysisTrace, if_neg hcs, runSteps_sheets_nil]
    · exact mkStepsFrom_pending now cs 0
  · intro index hidx
    have htr : handleReAnalyzeStepTrace [] an steps id newTitle newDescription =
        [mapAt steps index (fun s =>
          { s with
            title := newTitle, description := newDescription,
            status := Status.analyzing })] := by
      simp only [handleReAnalyzeStepTrace, hidx, executeStepTrace_nil]
    refine ⟨htr, ?_⟩
    rw [htr]
    have hlt : index < steps.length :=
      (List.findIdx?_eq_some_iff_findIdx_eq.mp hidx).1
    obtain ⟨q, hq⟩ : ∃ q, steps[index]? = some q :=
      ⟨steps[index], List.getElem?_eq_getElem hlt⟩
    simp only [List.headD_cons, mapAt_self, hq]
    rfl

/-- Witness: re-analyzing under an empty selection at a concrete input
leaves the edited step at `'analyzing'`. -/
theorem empty_selection_noop_witness :
    handleReAnalyzeStepTrace [] exampleAnalyzeOk exampleSteps (stepId 5 0)
        "T".data "D".data =
      [mapAt exampleSteps 0 (fun s =>
        { s with
          title := "T".data, description := "D".data,
          status := Status.analyzing })] ∧
      (((handleReAnalyzeStepTrace [] exampleAnalyzeOk exampleSteps (stepId 5 0)
        "T".data "D".data).headD [])[0]?).map (fun s => s.status) =
        some Status.analyzing :=
  (empty_selection_noop exampleAnalyzeOk 5 exampleSteps (stepId 5 0)
    "T".data "D".data).2.2 0 (by decide)

/-! ### Selection-map invariant (C4) -/

theorem selSet_mem (m : SelMap) (k : Nat) (v : List Nat) :
    ∀ p ∈ selSet m k v, p ∈ m ∨ p = (k, v) := by
  intro p hp
  unfold selSet at hp
  split at hp
  · rcases List.mem_map.mp hp with ⟨q, hq, hqe⟩
    by_cases hk : q.1 = k
    · right; rw [← hqe, if_pos hk]
    · left; rw [← hqe, if_neg hk]; exact hq
  · rcases List.mem_append.mp hp with h | h
    · left; exact h
    · right; simpa using h

theorem selDelete_mem (m : SelMap) (k : Nat) :
    ∀ p ∈ selDelete m k, p ∈ m := by
  intro p hp
  exact List.mem_of_mem_filter hp

theorem handleDataLoadedSel_inv (dataArray : List FileData) :
    SelInvariant (handleDataLoadedSel dataArray) := by
  unfold handleDataLoadedSel SelInvariant
  split
  · intro p hp; simp at hp
  · intro p hp
    simp only [List.mem_singleton] at hp
    rw [hp]
    simp

theorem handleToggleSheet_inv (m : SelMap) (fileIdx sheetIdx : Nat)
    (h : SelInvariant m) : SelInvariant (handleToggleSheet m fileIdx sheetIdx) := by
  unfold handleToggleSheet
  split
  · intro p hp
    exact h p (selDelete_mem m fileIdx p hp)
  · intro p hp
    rcases selSet_mem m fileIdx _ p hp with h1 | h1
    · exact h p h1
    · rw [h1]
      intro hc
      simp only at hc
      exact absurd hc (by assumption)

theorem handleToggleFile_some (files : List FileData) (m : SelMap)
    (fileIdx : Nat) :
    handleToggleFile (some files) m fileIdx = handleToggleFileWith files m fileIdx :=
  rfl

theorem handleToggleFile_inv (files : List FileData) (m : SelMap)
    (fileIdx : Nat) (h : SelInvariant m)
    (hfiles : ∀ file ∈ files, file.sheets ≠ []) :
    SelInvariant (handleToggleFile (some files) m fileIdx) := by
  rw [handleToggleFile_some]
  cases hf : files[fileIdx]? with
  | none => simp only [handleToggleFileWith, hf]; exact h
  | some file =>
    have hne : file.sheets ≠ [] := hfiles file (List.getElem?_mem hf)
    simp only [handleToggleFileWith, hf]
    split
    · intro p hp
      exact h p (selDelete_mem m fileIdx p hp)
    · intro p hp
      rcases selSet_mem m fileIdx _ p hp with h1 | h1
      · exact h p h1
      · rw [h1]
        simp only [ne_eq, List.range_eq_nil]
        intro hc
        exact hne (List.length_eq_zero.mp hc)

/-- C4 (amended) — Every selection-map operation preserves the
non-empty-set invariant, provided every loaded file has at least one
sheet: `handleDataLoaded` and `reset` install maps satisfying it,
`handleToggleSheet` preserves it unconditionally (deleting the file's
entry when the last sheet is deselected), and `handleToggleFile`
preserves it whenever the toggled file list contains no zero-sheet file
(for a zero-sheet file with a surviving entry it would install an empty
set — see the counterexample). -/
theorem selection_invariant_preserved (dataArray : List FileData) (m : SelMap)
    (files : List FileData) (fileIdx sheetIdx : Nat) :
    SelInvariant (handleDataLoadedSel dataArray) ∧
      (SelInvariant m → SelInvariant (handleToggleSheet m fileIdx sheetIdx)) ∧
      handleToggleFile none m fileIdx = m ∧
      (SelInvariant m → (∀ file ∈ files, file.sheets ≠ []) →
        SelInvariant (handleToggleFile (some files) m fileIdx)) ∧
      SelInvariant resetSel := by
  refine ⟨handleDataLoadedSel_inv dataArray,
    handleToggleSheet_inv m fileIdx sheetIdx, rfl,
    handleToggleFile_inv files m fileIdx, ?_⟩
  intro p hp
  simp [resetSel] at hp

/-- Witness: toggling a sheet on a concrete invariant-satisfying map
preserves the invariant. -/
theorem selection_invariant_preserved_witness :
    SelInvariant (handleToggleSheet [(0, [0])] 0 1) :=
  (selection_invariant_preserved [] [(0, [0])] [] 0 1).2.1 (by decide)

/-- C4 counterexample — the claim as stated fails: loading a single
zero-sheet file installs the entry `0 ↦ {0}`, and `handleToggleFile 0`
then installs the empty set for file `0` instead of a full non-empty set
or a deletion, violating the invariant. -/
theorem selection_invariant_counterexample :
    handleDataLoadedSel [exampleFileNoSheets] = [(0, [0])] ∧
      handleToggleFile (some [exampleFileNoSheets]) [(0, [0])] 0 = [(0, [])] ∧
      ¬ SelInvariant [(0, [])] := by
  refine ⟨by decide, by decide, ?_⟩
  intro h
  exact h (0, []) (by decide) rfl

/-! ### What a step update may mutate (C5) -/

/-- C5 counterexample — status transitions are not the only mutation: a
successful `executeStep` at a concrete input rewrites the step's `result`
field (from `none` to the returned result). -/
theorem status_only_mutation_counterexample :
    ((executeStepTrace [exampleSheet] exampleAnalyzeOk 0 exampleSteps
        exampleSteps).getLastD []).map (fun s => s.result) ≠
      exampleSteps.map (fun s => s.result) := by
  decide

/-- C5 (amended) — After a `StepAnalysis` is created, updates only ever
touch the targeted index and never its `id`: every state installed by
`executeStep` keeps every step's id, title and description, leaves all
steps other than the executed index unchanged, and changes the executed
step's `result` only when it sets the status to `'done'`; every state
installed by `handleReAnalyzeStep` keeps every step's id and leaves all
steps other than the matched index unchanged (the matched step's title
and description are overwritten by the initial edit). -/
theorem step_mutation_scope (sheets : List SheetData) (an : AnalyzeFn)
    (j : Nat) (cs cur steps : List StepAnalysis)
    (id newTitle newDescription : Str) :
    (∀ st ∈ executeStepTrace sheets an j cs cur,
        st.map (fun s => s.id) = cur.map (fun s => s.id) ∧
          st.map (fun s => s.title) = cur.map (fun s => s.title) ∧
          st.map (fun s => s.description) = cur.map (fun s => s.description) ∧
          (∀ i, i ≠ j → st[i]? = cur[i]?) ∧
          (∀ s c, st[j]? = some s → cur[j]? = some c →
            s.result ≠ c.result → s.status = Status.done)) ∧
      (∀ st ∈ handleReAnalyzeStepTrace sheets an steps id newTitle newDescription,
        st.map (fun s => s.id) = steps.map (fun s => s.id) ∧
          ∀ index, steps.findIdx? (fun s => s.id == id) = some index →
            ∀ i, i ≠ index → st[i]? = steps[i]?) := by
  constructor
  · intro st hst
    refine ⟨executeStepTrace_map (fun s => s.id) (fun _ _ _ => rfl)
        sheets an j cs cur st hst,
      executeStepTrace_map (fun s => s.title) (fun _ _ _ => rfl)
        sheets an j cs cur st hst,
      executeStepTrace_map (fun s => s.description) (fun _ _ _ => rfl)
        sheets an j cs cur st hst,
      fun i hi => executeStepTrace_frame sheets an j cs cur st hst i hi, ?_⟩
    intro s c hs hc hres
    by_cases hsh : sheets = []
    · subst hsh; simp [executeStepTrace_nil] at hst
    · rw [executeStepTrace_eq sheets an j cs cur hsh] at hst
      simp only [List.mem_cons, List.not_mem_nil, or_false] at hst
      rcases hst with h1 | h1
      · subst h1
        rw [mapAt_self, hc] at hs
        have : s = { c with status := Status.analyzing } := by
          simpa using hs.symm
        rw [this] at hres
        exact absurd rfl hres
      · subst h1
        rw [mapAt_self, mapAt_self, hc] at hs
        have hse : s = execFinal (execOutcome sheets an j cs)
            { c with status := Status.analyzing } := by
          simpa using hs.symm
        cases ho : execOutcome sheets an j cs with
        | ok r => rw [hse, ho]; rfl
        | error e =>
          rw [hse, ho] at hres
          exact absurd rfl hres
  · intro st hst
    cases hidx : steps.findIdx? (fun s => s.id == id) with
    | none => simp [handleReAnalyzeStepTrace, hidx] at hst
    | some index =>
      simp only [handleReAnalyzeStepTrace, hidx] at hst
      constructor
      · rcases List.mem_cons.mp hst with h1 | h1
        · rw [h1]
          exact mapAt_map _ _ _ _ (fun _ => rfl)
        · rw [executeStepTrace_map (fun s => s.id) (fun _ _ _ => rfl)
            sheets an index _ _ st h1]
          exact mapAt_map _ _ _ _ (fun _ => rfl)
      · intro index' hidx' i hi
        have hii : index = index' := Option.some.inj hidx'
        subst hii
        rcases List.mem_cons.mp hst with h1 | h1
        · rw [h1, mapAt_ne _ _ _ _ hi]
        · rw [executeStepTrace_frame _ _ _ _ _ _ h1 _ hi, mapAt_ne _ _ _ _ hi]

/-- Witness: in the final state of a concrete failed `executeStep`, the
non-targeted step is unchanged. -/
theorem step_mutation_scope_witness :
    ((executeStepTrace [exampleSheet] exampleAnalyzeThrow 0 exampleSteps
      exampleSteps).getLastD exampleSteps)[1]? = exampleSteps[1]? :=
  ((step_mutation_scope [exampleSheet] exampleAnalyzeThrow 0 exampleSteps
      exampleSteps exampleSteps [] [] []).1
    ((executeStepTrace [exampleSheet] exampleAnalyzeThrow 0 exampleSteps
      exampleSteps).getLastD exampleSteps) (by decide)).2.2.2.1 1 (by decide)

/-! ### Data sampled for the external call (C8) -/

theorem insertUnique_pos (acc : List Str) (x : Str) (h : x ∈ acc) :
    insertUnique acc x = acc := by
  simp [insertUnique, h]

theorem insertUnique_neg (acc : List Str) (x : Str) (h : x ∉ acc) :
    insertUnique acc x = acc ++ [x] := by
  simp [insertUnique, h]

theorem foldl_insertUnique_mem (l : List Str) :
    ∀ acc x, x ∈ l.foldl insertUnique acc ↔ x ∈ acc ∨ x ∈ l := by
  induction l with
  | nil => intro acc x; simp
  | cons a t ih =>
    intro acc x
    simp only [List.foldl_cons]
    rw [ih]
    by_cases ha : a ∈ acc
    · rw [insertUnique_pos acc a ha]
      simp only [List.mem_cons]
      constructor
      · rintro (h | h)
        · exact Or.inl h
        · exact Or.inr (Or.inr h)
      · rintro (h | h | h)
        · exact Or.inl h
        · subst h; exact Or.inl ha
        · exact Or.inr h
    · rw [insertUnique_neg acc a ha]
      simp only [List.mem_append, List.mem_singleton, List.mem_cons]
      tauto

theorem foldl_insertUnique_nodup (l : List Str) :
    ∀ acc, acc.Nodup → (l.foldl insertUnique acc).Nodup := by
  induction l with
  | nil => intro acc h; exact h
  | cons a t ih =>
    intro acc h
    simp only [List.foldl_cons]
    refine ih _ ?_
    by_cases ha : a ∈ acc
    · rw [insertUnique_pos acc a ha]; exact h
    · rw [insertUnique_neg acc a ha]
      refine List.Nodup.append h (List.nodup_singleton a) ?_
      intro x hx hx1
      rw [List.mem_singleton] at hx1
      subst hx1
      exact ha hx

theorem foldl_insertUnique_split (l : List Str) :
    ∀ acc, ∃ u, l.foldl insertUnique acc = acc ++ u ∧ u.Sublist l := by
  induction l with
  | nil => intro acc; exact ⟨[], by simp, List.nil_sublist []⟩
  | cons a t ih =>
    intro acc
    simp only [List.foldl_cons]
    by_cases ha : a ∈ acc
    · rw [insertUnique_pos acc a ha]
      obtain ⟨u, hu, hsub⟩ := ih acc
      exact ⟨u, hu, List.Sublist.cons a hsub⟩
    · rw [insertUnique_neg acc a ha]
      obtain ⟨u, hu, hsub⟩ := ih (acc ++ [a])
      refine ⟨a :: u, ?_, List.Sublist.cons₂ a hsub⟩
      rw [hu, List.append_assoc]
      rfl

theorem dedupFirst_nodup (l : List Str) : (dedupFirst l).Nodup :=
  foldl_insertUnique_nodup l [] List.nodup_nil

theorem dedupFirst_mem (l : List Str) (x : Str) : x ∈ dedupFirst l ↔ x ∈ l := by
  have h := foldl_insertUnique_mem l [] x
  simpa [dedupFirst] using h

theorem dedupFirst_sublist (l : List Str) : (dedupFirst l).Sublist l := by
  obtain ⟨u, hu, hsub⟩ := foldl_insertUnique_split l []
  unfold dedupFirst
  rw [hu]
  simpa using hsub

/-- C8 — The data handed to the external call: the sample is the
concatenation, over the selected sheets in selection-map iteration order
(the hypothesis ties `sheets` to `activeSheets`), of exactly the first
`min 50 |rows|` rows of each sheet — every sampled row comes from a
position `< 50` of some selected sheet — and the column list is
duplicate-free, contains exactly the selected sheets' column names, and
is a sublist of their concatenation (so it keeps first-occurrence
order). -/
theorem sample_truncation_and_columns (fds : Option (List FileData))
    (m : SelMap) (sheets : List SheetData)
    (hsel : activeSheets fds m = sheets.map some) :
    (∀ s ∈ sheets, some s ∈ activeSheets fds m) ∧
      (combinedSample sheets).length =
        (sheets.map (fun s => min 50 s.rows.length)).sum ∧
      (∀ r ∈ combinedSample sheets, ∃ s ∈ sheets, ∃ k, k < 50 ∧
        s.rows[k]? = some r) ∧
      (combinedColumns sheets).Nodup ∧
      (∀ c, c ∈ combinedColumns sheets ↔ ∃ s ∈ sheets, c ∈ s.columns) ∧
      (combinedColumns sheets).Sublist
        ((sheets.map (fun s => s.columns)).flatten) := by
  refine ⟨?_, ?_, ?_, dedupFirst_nodup _, ?_, dedupFirst_sublist _⟩
  · intro s hs
    rw [hsel]
    exact List.mem_map_of_mem some hs
  · simp [combinedSample, List.length_flatten, List.map_map, Function.comp_def,
      List.length_take]
  · intro r hr
    simp only [combinedSample, List.mem_flatten] at hr
    obtain ⟨part, hpart, hrp⟩ := hr
    obtain ⟨s, hsmem, hseq⟩ := List.mem_map.mp hpart
    subst hseq
    obtain ⟨k, hk⟩ := List.mem_iff_getElem?.mp hrp
    have hklt : k < (s.rows.take 50).length :=
      (List.getElem?_eq_some_iff.mp hk).1
    have hk50 : k < 50 := by
      rw [List.length_take] at hklt
      omega
    refine ⟨s, hsmem, k, hk50, ?_⟩
    rw [← List.getElem?_take_of_lt hk50]
    exact hk
  · intro c
    simp only [combinedColumns]
    rw [dedupFirst_mem]
    simp only [List.mem_flatten, List.mem_map]
    constructor
    · rintro ⟨part, ⟨s, hs, hpe⟩, hc⟩
      exact ⟨s, hs, hpe ▸ hc⟩
    · rintro ⟨s, hs, hc⟩
      exact ⟨s.columns, ⟨s, hs, rfl⟩, hc⟩

/-- Witness: for a concrete one-file, one-sheet selection, the sampled
columns are exactly the sheet's columns. -/
theorem sample_truncation_and_columns_witness :
    "c".data ∈ combinedColumns [exampleSheet] ↔
      ∃ s ∈ [exampleSheet], "c".data ∈ s.columns :=
  (sample_truncation_and_columns
    (some [{ name := "f".data, sheets := [exampleSheet],
             activeSheetIndex := 0 }])
    [(0, [0])] [exampleSheet] (by decide)).2.2.2.2.1 "c".data

/-! ### The `'Title: Description'` parse (C10) -/

theorem splitOnColon_ne_nil (s : Str) : splitOnColon s ≠ [] := by
  cases s with
  | nil => simp [splitOnColon]
  | cons c rest =>
    by_cases hc : c = ':'
    · simp [splitOnColon, hc]
    · cases h : splitOnColon rest <;> simp [splitOnColon, hc, h]

theorem splitOnColon_no_colon (s : Str) (h : ':' ∉ s) : splitOnColon s = [s] := by
  induction s with
  | nil => rfl
  | cons c rest ih =>
    have hc : ¬ c = ':' := fun he => h (he ▸ List.mem_cons_self c rest)
    have hrest : ':' ∉ rest := fun hm => h (List.mem_cons_of_mem c hm)
    simp only [splitOnColon, if_neg hc, ih hrest]

theorem splitOnColon_colon (s : Str) (h : ':' ∈ s) :
    splitOnColon s = specTitleText s :: splitOnColon (restAfterColon s) := by
  induction s with
  | nil => simp at h
  | cons c rest ih =>
    by_cases hc : c = ':'
    · subst hc
      simp [splitOnColon, specTitleText, restAfterColon, List.takeWhile_cons,
        List.dropWhile_cons]
    · have hrest : ':' ∈ rest := by
        rcases List.mem_cons.mp h with h1 | h1
        · exact absurd h1.symm hc
        · exact h1
      have htw : specTitleText (c :: rest) = c :: specTitleText rest := by
        simp [specTitleText, List.takeWhile_cons, hc]
      have hdw : restAfterColon (c :: rest) = restAfterColon rest := by
        simp [restAfterColon, List.dropWhile_cons, hc]
      rw [htw, hdw]
      simp only [splitOnColon, if_neg hc, ih hrest]

theorem joinColon_cons₂ (x y : Str) (t : List Str) :
    joinColon (x :: y :: t) = x ++ ':' :: joinColon (y :: t) := rfl

theorem joinColon_splitOnColon (s : Str) : joinColon (splitOnColon s) = s := by
  induction s with
  | nil => rfl
  | cons c rest ih =>
    by_cases hc : c = ':'
    · subst hc
      cases hsp : splitOnColon rest with
      | nil => exact absurd hsp (splitOnColon_ne_nil rest)
      | cons h t =>
        have hLHS : splitOnColon (':' :: rest) = [] :: h :: t := by
          simp [splitOnColon, hsp]
        rw [hLHS, joinColon_cons₂, List.nil_append, ← hsp, ih]
    · cases hsp : splitOnColon rest with
      | nil => exact absurd hsp (splitOnColon_ne_nil rest)
      | cons hd t =>
        have hLHS : splitOnColon (c :: rest) = (c :: hd) :: t := by
          simp [splitOnColon, hc, hsp]
        cases t with
        | nil =>
          rw [hLHS]
          have hj : joinColon [c :: hd] = c :: hd := rfl
          rw [hj]
          rw [hsp] at ih
          have ih' : hd = rest := ih
          rw [ih']
        | cons y t' =>
          rw [hLHS, joinColon_cons₂, List.cons_append, ← joinColon_cons₂,
            ← hsp, ih]

theorem splitOnColon_headD (s : Str) :
    (splitOnColon s).headD [] = specTitleText s := by
  by_cases h : ':' ∈ s
  · rw [splitOnColon_colon s h]
    rfl
  · rw [splitOnColon_no_colon s h]
    simp only [List.headD_cons, specTitleText]
    rw [List.takeWhile_eq_self_iff.mpr]
    intro c hc
    simp only [decide_eq_true_eq]
    exact fun he => h (he ▸ hc)

theorem splitOnColon_tail_join (s : Str) :
    joinColon ((splitOnColon s).drop 1) = specDescText s := by
  by_cases h : ':' ∈ s
  · rw [splitOnColon_colon s h]
    simp only [List.drop_succ_cons, List.drop_zero, specDescText, if_pos h]
    exact joinColon_splitOnColon (restAfterColon s)
  · rw [splitOnColon_no_colon s h]
    simp [specDescText, h, joinColon]

/-- C10 — `runAnalysis` parses every custom step string `s` as
`'Title: Description'`: the title is the text before the first `':'`
trimmed, falling back to `分析步骤 N` (N the 1-based position) when that
trimmed text is empty, and the description is the text after the first
`':'` with any later colons preserved, trimmed, falling back to the whole
string when that trimmed text is empty; and the step list built by
`runAnalysis` applies exactly this parse at every position. -/
theorem parse_title_description (now idx : Nat) (s : Str) :
    (parseStep now idx s).title = (specParse idx s).1 ∧
      (parseStep now idx s).description = (specParse idx s).2 ∧
      ∀ cs i, (mkInitialSteps now cs)[i]? =
        (cs[i]?).map (fun u => parseStep now i u) := by
  refine ⟨?_, ?_, fun cs i => mkInitialSteps_idx now cs i⟩
  · simp only [parseStep, specParse]
    rw [splitOnColon_headD]
  · simp only [parseStep, specParse]
    rw [splitOnColon_tail_join]
